import Mathlib

/-!
Verification of the hybrid retrieval and rank-fusion engine in
`src/api/search_service.py`.

The engine's pure parts (tokenizer, score normalizers, Jaccard overlap,
candidate merge, per-candidate signal scoring, stable descending sort) are
embedded as executable Lean functions over `ℚ`, transcribed from the Python
source.  The `search` endpoint itself is embedded as a function of the query,
`k`, and the outcomes of the two backend POST calls it makes (each outcome is
either a raised request exception or a status code plus hit list); the
returned value also carries the list of request bodies actually posted, so
that claims about "no backend call is made" can be stated.

Notes kept while transcribing the source file:
- the source file has a handful of evident editing slips (a duplicated,
  mis-indented copy of the candidate-building loop at lines 673-677, stray
  duplicates of two scoring lines at 695-696, a missing `import os`, and a
  missing `results = []` initializer); the embedding follows the coherent
  control flow that those duplicated lines shadow.
- Python floats are modelled as exact rationals.
- Python's `dict` preserves insertion order; dictionaries are modelled as
  association lists with insertion-order semantics (comprehension inserts
  overwrite the value but keep the first key position; the candidate merge
  inserts only absent keys).
- Python's stable `sorted(..., reverse=True)` is modelled with `List.mergeSort`
  on the flipped comparison, which is likewise a stable merge sort.
-/

namespace SearchService

/-- Weight constants from the top of `search_service.py`. -/
def VECTOR_WEIGHT : ℚ := 4/10

/-- `KEYWORD_WEIGHT = 0.6` in the source. -/
def KEYWORD_WEIGHT : ℚ := 6/10

/-- `PHRASE_WEIGHT = 0.15` in the source. -/
def PHRASE_WEIGHT : ℚ := 15/100

/-- `FUZZY_WEIGHT = 0.05` in the source. -/
def FUZZY_WEIGHT : ℚ := 5/100

/-- The fixed stopword set `STOPWORDS` of the source. -/
def STOPWORDS : List String := ["the", "a", "an", "of", "for", "and", "to", "in", "on", "with"]

/-- A character matched by the token pattern `[a-z0-9]+` (applied after
lowercasing, as in `tokenize`). -/
def isTokenChar (c : Char) : Bool :=
  (('a' ≤ c && c ≤ 'z') || ('0' ≤ c && c ≤ '9'))

/-- Splits a character list into the maximal runs of token characters,
accumulating the current run in reverse. -/
def tokenRuns (cur : List Char) : List Char → List (List Char)
  | [] => if cur.isEmpty then [] else [cur.reverse]
  | c :: cs =>
    if isTokenChar c then tokenRuns (c :: cur) cs
    else if cur.isEmpty then tokenRuns [] cs
    else cur.reverse :: tokenRuns [] cs

/-- `tokenize(text)`: `TOKEN_RE.findall((text or "").lower())` — the maximal
runs of `[a-z0-9]` in the lowercased text. -/
def tokenize (text : String) : List String :=
  (tokenRuns [] (text.data.map Char.toLower)).map String.mk

/-- `normalized_knn_score(raw_score)`: `raw_score / (1.0 + max(raw_score, 0.0))`. -/
def normalized_knn_score (raw_score : ℚ) : ℚ :=
  raw_score / (1 + max raw_score 0)

/-- `jaccard_similarity(a_tokens, b_tokens)`: token-set Jaccard overlap,
`0.0` when either set is empty. -/
def jaccard_similarity (a_tokens b_tokens : List String) : ℚ :=
  let a_set := a_tokens.toFinset
  let b_set := b_tokens.toFinset
  if a_set = ∅ ∨ b_set = ∅ then 0
  else ((a_set ∩ b_set).card : ℚ) / ((a_set ∪ b_set).card : ℚ)

/-- `max` of a nonempty list of rationals, as `max(scores_by_id.values())`
computes it (the `[]` case is never reached by the caller). -/
def maxQ : List ℚ → ℚ
  | [] => 0
  | [x] => x
  | x :: y :: xs => max x (maxQ (y :: xs))

/-- `normalize_text_score(scores_by_id)`: divide every raw lexical score by the
maximum raw score; all zeros when the maximum is non-positive; empty input
yields the empty mapping. -/
def normalize_text_score (scores_by_id : List (String × ℚ)) : List (String × ℚ) :=
  if scores_by_id = [] then []
  else
    let max_score := maxQ (scores_by_id.map Prod.snd)
    if max_score ≤ 0 then scores_by_id.map (fun p => (p.1, (0 : ℚ)))
    else scores_by_id.map (fun p => (p.1, p.2 / max_score))

/-- One element of a backend `hits` array: `_id` (possibly missing), `_score`
(defaulted to 0 by the source's `h.get("_score", 0)`) and the `_source` title
(defaulted to `""`). -/
structure Hit where
  id : Option String
  score : ℚ
  title : String
deriving DecidableEq

/-- The document id of a hit when it is "truthy" in the Python sense used by
the source (`if doc_id` / `if h.get("_id")`): present and non-empty. -/
def hitId (h : Hit) : Option String :=
  match h.id with
  | none => none
  | some i => if i = "" then none else some i

/-- Python-dict insertion: overwrite the value in place when the key exists,
otherwise append at the end (insertion order preserved). -/
def dictInsert (m : List (String × ℚ)) (key : String) (v : ℚ) : List (String × ℚ) :=
  if m.any (fun p => p.1 == key) then
    m.map (fun p => if p.1 == key then (p.1, v) else p)
  else m ++ [(key, v)]

/-- `d.get(key, 0.0)` on an association list. -/
def dictGet (m : List (String × ℚ)) (key : String) : ℚ :=
  match m.find? (fun p => p.1 == key) with
  | some p => p.2
  | none => 0

/-- The dict comprehension `{h["_id"]: f(h) for h in hits if h.get("_id")}`. -/
def buildScoreDict (f : Hit → ℚ) (hits : List Hit) : List (String × ℚ) :=
  hits.foldl
    (fun m h =>
      match hitId h with
      | some i => dictInsert m i (f h)
      | none => m) []

/-- One step of the candidate merge: insert a hit keyed by its document id
only when the id is truthy and not already present. -/
def addCandidate (m : List (String × Hit)) (h : Hit) : List (String × Hit) :=
  match hitId h with
  | some i => if m.any (fun p => p.1 == i) then m else m ++ [(i, h)]
  | none => m

/-- The candidate merge loop: `for h in vector_hits + text_hits: ...` with
first occurrence fixing the retained hit. -/
def mergeCandidates (vector_hits text_hits : List Hit) : List (String × Hit) :=
  (vector_hits ++ text_hits).foldl addCandidate []

/-- The content-token computation of the search body: filter `STOPWORDS` out
of the query tokens; fall back to the unfiltered tokens when nothing is left. -/
def content_tokens_of (q : String) : List String :=
  let query_tokens := tokenize q
  let content_tokens := query_tokens.filter (fun t => !STOPWORDS.contains t)
  if content_tokens = [] then query_tokens else content_tokens

/-- Lowercased character sequence of a string (`s.lower()`). -/
def lowerChars (s : String) : List Char := s.data.map Char.toLower

/-- Python's substring test `sub in s` over character lists. -/
def strContains (s sub : List Char) : Bool :=
  (List.range (s.length + 1)).any (fun i => ((s.drop i).take sub.length) == sub)

/-- One ranked result: id, title, blended `final_score`, and the four
explain components. -/
structure RankedResult where
  id : String
  title : String
  score : ℚ
  semantic : ℚ
  lexical : ℚ
  phrase : ℚ
  fuzzy : ℚ
deriving DecidableEq

/-- The per-candidate body of the scoring loop in `search` (lines 679-722 of
the source): keyword overlap ratio, phrase bonus added to the keyword score,
phrase boost, Jaccard fuzzy score, and the four weighted components. -/
def scoreCandidate (q : String) (content_tokens : List String)
    (text_scores vector_scores : List (String × ℚ)) (docId : String) (h : Hit) :
    RankedResult :=
  let title := h.title
  let vector_score := dictGet vector_scores docId
  let lexical_score := dictGet text_scores docId
  let title_tokens := tokenize title
  let content_matches := content_tokens.filter (fun t => title_tokens.contains t)
  let keyword_matches := content_matches.length
  let keyword_score : ℚ := (keyword_matches : ℚ) / ((max content_tokens.length 1 : ℕ) : ℚ)
  let fuzzy_score := jaccard_similarity content_tokens title_tokens
  let phraseHit := strContains (lowerChars title) (lowerChars q)
  let keyword_score := if phraseHit then keyword_score + 1 else keyword_score
  let phrase_boost : ℚ := if phraseHit then 1 else 0
  let semantic_component := VECTOR_WEIGHT * vector_score
  let lexical_component := KEYWORD_WEIGHT * (65/100 * lexical_score + 35/100 * keyword_score)
  let phrase_component := PHRASE_WEIGHT * phrase_boost
  let fuzzy_component := FUZZY_WEIGHT * fuzzy_score
  { id := docId
    title := title
    score := semantic_component + lexical_component + phrase_component + fuzzy_component
    semantic := semantic_component
    lexical := lexical_component
    phrase := phrase_component
    fuzzy := fuzzy_component }

/-- Flipped comparison used to model `sorted(results, key=..., reverse=True)`. -/
def scoreDescLE (a b : RankedResult) : Bool := decide (b.score ≤ a.score)

/-- Python's `sorted(results, key=lambda x: x["score"], reverse=True)`:
a stable sort placing higher scores first. -/
def sortByScoreDesc (l : List RankedResult) : List RankedResult :=
  List.mergeSort l scoreDescLE

/-- `sorted(...)[:k]`. -/
def rankResults (l : List RankedResult) (k : ℕ) : List RankedResult :=
  (sortByScoreDesc l).take k

/-- One query clause of a request body, as built at lines 598-625. -/
inductive Clause where
  | matchTitle (query : String) (boost : ℚ) : Clause
  | matchPhraseTitle (query : String) (boost : ℚ) : Clause
  | matchFuzzyTitle (query : String) (fuzziness : String) (boost : ℚ) : Clause
deriving DecidableEq

/-- A `_search` request body: size, the `bool.should` clause list, and
`minimum_should_match`. -/
structure SearchBody where
  size : ℕ
  should : List Clause
  minimumShouldMatch : ℕ
deriving DecidableEq

/-- `vector_body` as built by `search` (lines 598-610): despite its name it is
a lexical bool query over `title` with no knn clause and no query vector. -/
def vector_body (q : String) : SearchBody :=
  { size := 50
    should := [Clause.matchTitle q 1, Clause.matchPhraseTitle q 2,
               Clause.matchFuzzyTitle q ("AUTO") (4/10)]
    minimumShouldMatch := 1 }

/-- `text_body` as built by `search` (lines 613-625). -/
def text_body (q : String) : SearchBody :=
  { size := 50
    should := [Clause.matchTitle q 1, Clause.matchPhraseTitle q 2,
               Clause.matchFuzzyTitle q ("AUTO") (4/10)]
    minimumShouldMatch := 1 }

/-- Outcome of one `requests.post` call: a raised `RequestException`, or a
response with a status code and a hit list. -/
inductive PostResult where
  | exn : PostResult
  | resp (status : ℕ) (hits : List Hit) : PostResult
deriving DecidableEq

/-- `not q or not q.strip()`: the query is empty or whitespace-only. -/
def isBlank (q : String) : Bool := q.data.all (fun c => c.isWhitespace)

/-- The `/search` endpoint.  `embed_cached` is the module's embedding lookup
(available but, as in the source, never consulted by `search`); `vectorPost`
and `textPost` are the outcomes of the two sequential backend POST calls, in
the order the source issues them.  Returns the HTTP outcome (status-coded
error, or the ranked result list) together with the request bodies that were
actually posted before the function returned. -/
def search (embed_cached : String → List ℚ) (vectorPost textPost : PostResult)
    (q : String) (k : ℤ) : Except ℕ (List RankedResult) × List SearchBody :=
  if isBlank q then (Except.error 400, [])
  else if k < 1 ∨ 50 < k then (Except.error 400, [])
  else
    match vectorPost with
    | PostResult.exn => (Except.error 500, [vector_body q])
    | PostResult.resp vstatus vector_hits =>
      match textPost with
      | PostResult.exn => (Except.error 500, [vector_body q, text_body q])
      | PostResult.resp tstatus text_hits =>
        if 400 ≤ vstatus then (Except.error 500, [vector_body q, text_body q])
        else if 400 ≤ tstatus then (Except.error 500, [vector_body q, text_body q])
        else
          let text_scores := normalize_text_score (buildScoreDict (fun h => h.score) text_hits)
          let vector_scores := buildScoreDict (fun h => normalized_knn_score h.score) vector_hits
          let candidates := mergeCandidates vector_hits text_hits
          let content_tokens := content_tokens_of q
          let results := candidates.map
            (fun p => scoreCandidate q content_tokens text_scores vector_scores p.1 p.2)
          (Except.ok (rankResults results k.toNat), [vector_body q, text_body q])

/-- C3: for every query string q, the request body built for the "vector"
retrieval call is identical to the body built for the lexical call (a lexical
bool query over the title field, no knn clause, no query vector); `search`
never consults the embedding cache or provider, so its outcome is independent
of the embedding function, and any backend answers the two bodies
identically. -/
theorem request_bodies_identical_and_embedding_unused (q : String) :
    vector_body q = text_body q ∧
    (∀ (e₁ e₂ : String → List ℚ) (r₁ r₂ : PostResult) (k : ℤ),
      search e₁ r₁ r₂ q k = search e₂ r₁ r₂ q k) ∧
    (∀ backend : SearchBody → PostResult, backend (vector_body q) = backend (text_body q)) :=
  ⟨rfl, fun _ _ _ _ _ => rfl, fun _ => rfl⟩

/-- C8: KNN normalization computes `s / (1 + max(s, 0))`, is monotone
non-decreasing, and maps 0 to 0. -/
theorem normalized_knn_score_spec (s t : ℚ) (h : s ≤ t) :
    normalized_knn_score s = s / (1 + max s 0) ∧
    normalized_knn_score s ≤ normalized_knn_score t ∧
    normalized_knn_score 0 = 0 := by
  refine ⟨rfl, ?_, by norm_num [normalized_knn_score]⟩
  unfold normalized_knn_score
  rcases le_or_lt t 0 with ht | ht
  · rw [max_eq_right (le_trans h ht), max_eq_right ht]
    simpa using h
  · rcases le_or_lt s 0 with hs | hs
    · rw [max_eq_right hs, max_eq_left ht.le]
      have h1 : (0:ℚ) < 1 + t := by linarith
      have h2 : (0:ℚ) ≤ t / (1 + t) := div_nonneg ht.le h1.le
      have h3 : s / 1 ≤ 0 := by simpa using hs
      linarith
    · rw [max_eq_left hs.le, max_eq_left ht.le]
      rw [div_le_div_iff₀ (by linarith) (by linarith)]
      ring_nf
      nlinarith

/-- Witness for C8 at `s = 0`, `t = 1`. -/
theorem normalized_knn_score_spec_spot :
    normalized_knn_score 0 ≤ normalized_knn_score 1 :=
  (normalized_knn_score_spec 0 1 (by norm_num)).2.1

/-- C6: a blank query or a `k` outside [1, 50] is rejected with HTTP 400
before any backend request is posted (the trace of issued bodies is empty). -/
theorem invalid_request_rejected (e : String → List ℚ) (r₁ r₂ : PostResult)
    (q : String) (k : ℤ) (h : isBlank q = true ∨ k < 1 ∨ 50 < k) :
    search e r₁ r₂ q k = (Except.error 400, []) := by
  unfold search
  by_cases hb : isBlank q
  · rw [if_pos hb]
  · rcases h with h | h
    · exact absurd h hb
    · rw [if_neg hb, if_pos h]

/-- Witness for C6 at the whitespace-only query of the test suite. -/
theorem invalid_request_rejected_spot :
    search (fun _ => []) (PostResult.resp 200 []) (PostResult.resp 200 []) ("   ") 5 =
      (Except.error 400, []) :=
  invalid_request_rejected _ _ _ _ _ (Or.inl (by decide))

/-- C1 counterexample: with a valid query, a vector-side HTTP 500 and a
successful lexical response carrying a hit, `search` fails the whole request
with HTTP 500 instead of returning the lexical results. -/
theorem vector_backend_error_fails_request_cex :
    (search (fun _ => []) (PostResult.resp 500 [])
      (PostResult.resp 200 [{ id := some "1", score := 4, title := "Red Dress" }])
      ("red dress") 5).1 = Except.error 500 := rfl

/-- C1 amended: if the vector retrieval call raises or returns an HTTP error,
`search` fails the whole request with HTTP 500 (after a raised exception the
lexical call is not even issued); it never fails because of the embedding
path, which it does not invoke. -/
theorem vector_failure_aborts_search (e : String → List ℚ) (q : String) (k : ℤ)
    (hq : isBlank q = false) (hk : ¬(k < 1 ∨ 50 < k)) :
    (∀ r₂, search e PostResult.exn r₂ q k = (Except.error 500, [vector_body q])) ∧
    (∀ vstatus vhits tstatus thits, 400 ≤ vstatus →
      search e (PostResult.resp vstatus vhits) (PostResult.resp tstatus thits) q k =
        (Except.error 500, [vector_body q, text_body q])) := by
  refine ⟨fun r₂ => ?_, fun vs vh ts th hv => ?_⟩
  · simp [search, hq, hk]
  · simp [search, hq, hk, hv]

/-- Witness for C1 (amended) on a concrete request. -/
theorem vector_failure_aborts_search_spot :
    search (fun _ => []) PostResult.exn (PostResult.resp 200 []) ("red dress") 5 =
      (Except.error 500, [vector_body ("red dress")]) :=
  (vector_failure_aborts_search _ _ _ (by decide) (by decide)).1 _

/-- C2 counterexample: when both backend calls succeed with zero hits,
`search` returns the empty list as an HTTP success; no distinct
backend-unavailable failure is signalled. -/
theorem both_sources_empty_returns_empty_success_cex :
    search (fun _ => []) (PostResult.resp 200 []) (PostResult.resp 200 []) ("red dress") 5 =
      (Except.ok [], [vector_body ("red dress"), text_body ("red dress")]) := by
  have hb : isBlank ("red dress") = false := by decide
  have hk : ¬((5:ℤ) < 1 ∨ 50 < 5) := by decide
  simp [search, hb, hk, rankResults, sortByScoreDesc, mergeCandidates,
        normalize_text_score, buildScoreDict]

/-- C2 amended: whenever both retrieval calls succeed (status < 400) but carry
zero hits, `search` returns the empty result list as a success, not a
distinct failure. -/
theorem both_sources_empty_spec (e : String → List ℚ) (q : String) (k : ℤ)
    (vstatus tstatus : ℕ)
    (hq : isBlank q = false) (hk : ¬(k < 1 ∨ 50 < k))
    (hv : vstatus < 400) (ht : tstatus < 400) :
    search e (PostResult.resp vstatus []) (PostResult.resp tstatus []) q k =
      (Except.ok [], [vector_body q, text_body q]) := by
  simp [search, hq, hk, Nat.not_le.mpr hv, Nat.not_le.mpr ht, mergeCandidates,
        normalize_text_score, buildScoreDict, rankResults, sortByScoreDesc]

/-- Witness for C2 (amended) on a concrete request. -/
theorem both_sources_empty_spec_spot :
    search (fun _ => []) (PostResult.resp 200 []) (PostResult.resp 201 []) ("blue") 3 =
      (Except.ok [], [vector_body ("blue"), text_body ("blue")]) :=
  both_sources_empty_spec _ _ _ _ _ (by decide) (by decide) (by decide) (by decide)

/-- C7 counterexample: the query `"!!!"` is a non-empty string, yet its
content-token sequence is empty (no alphanumeric run survives tokenization,
and the stopword fallback falls back to the equally empty token list). -/
theorem content_tokens_empty_for_punctuation_cex :
    ("!!!" : String) ≠ "" ∧ content_tokens_of ("!!!") = [] := by decide

/-- C7 amended: content tokens are the query tokens minus the stopword set,
with fallback to the unfiltered tokens when the filter leaves nothing; the
result is non-empty whenever tokenization of the query yields at least one
token (a query with no alphanumeric character yields the empty sequence). -/
theorem content_tokens_spec (q : String) (h : tokenize q ≠ []) :
    content_tokens_of q ≠ [] ∧
    ((tokenize q).filter (fun t => !STOPWORDS.contains t) = [] →
      content_tokens_of q = tokenize q) ∧
    ((tokenize q).filter (fun t => !STOPWORDS.contains t) ≠ [] →
      content_tokens_of q = (tokenize q).filter (fun t => !STOPWORDS.contains t)) := by
  simp only [content_tokens_of]
  by_cases hf : (tokenize q).filter (fun t => !STOPWORDS.contains t) = []
  · rw [if_pos hf]
    exact ⟨h, fun _ => rfl, fun hne => absurd hf hne⟩
  · rw [if_neg hf]
    exact ⟨hf, fun he => absurd he hf, fun _ => rfl⟩

/-- Witness for C7 (amended): an all-stopword query falls back to its
unfiltered tokens. -/
theorem content_tokens_spec_spot :
    content_tokens_of ("the") = tokenize ("the") :=
  (content_tokens_spec _ (by decide)).2.1 (by decide)

/-- Every member of a rational list is bounded by `maxQ`. -/
theorem le_maxQ (l : List ℚ) : ∀ x ∈ l, x ≤ maxQ l := by
  induction l with
  | nil => simp
  | cons a t ih =>
    intro x hx
    cases t with
    | nil =>
      simp only [List.mem_singleton] at hx
      simp [maxQ, hx]
    | cons b u =>
      rcases List.mem_cons.mp hx with rfl | hx
      · exact le_max_left _ _
      · exact le_trans (ih x hx) (le_max_right _ _)

/-- C5 counterexample: a mapping with a negative raw score beside a positive
maximum normalizes that entry to a value outside [0, 1]. -/
theorem normalize_negative_score_cex :
    normalize_text_score [(("a" : String), (5:ℚ)), (("b" : String), -1)] =
      [(("a" : String), (1:ℚ)), (("b" : String), -1/5)] ∧ ((-1:ℚ)/5 < 0) := by
  constructor
  · have hmax : maxQ ([(("a" : String), (5:ℚ)), (("b" : String), -1)].map Prod.snd) = 5 := by
      norm_num [maxQ, max_def]
    simp only [normalize_text_score]
    rw [if_neg (by decide), hmax, if_neg (by norm_num)]
    norm_num
  · norm_num

/-- C5 amended: lexical normalization divides by the maximum raw score when it
is positive, sends every entry to 0 when the maximum is non-positive, maps the
empty mapping to the empty mapping, bounds every normalized value above by 1,
keeps values non-negative when all raw scores are non-negative, and sends an
entry holding the positive maximum to exactly 1.  (Without the non-negativity
assumption a negative raw score normalizes below 0.) -/
theorem normalize_text_score_spec (m : List (String × ℚ)) (hm : m ≠ []) :
    normalize_text_score [] = [] ∧
    (maxQ (m.map Prod.snd) ≤ 0 →
      normalize_text_score m = m.map (fun p => (p.1, (0:ℚ)))) ∧
    (0 < maxQ (m.map Prod.snd) →
      normalize_text_score m = m.map (fun p => (p.1, p.2 / maxQ (m.map Prod.snd))) ∧
      (∀ p ∈ normalize_text_score m, p.2 ≤ 1) ∧
      ((∀ p ∈ m, 0 ≤ p.2) → ∀ p ∈ normalize_text_score m, 0 ≤ p.2) ∧
      (∀ key, (key, maxQ (m.map Prod.snd)) ∈ m → (key, 1) ∈ normalize_text_score m)) := by
  refine ⟨rfl, ?_, ?_⟩
  · intro hle
    simp only [normalize_text_score]
    rw [if_neg hm, if_pos hle]
  · intro hpos
    have heq : normalize_text_score m = m.map (fun p => (p.1, p.2 / maxQ (m.map Prod.snd))) := by
      simp only [normalize_text_score]
      rw [if_neg hm, if_neg (not_le.mpr hpos)]
    refine ⟨heq, ?_, ?_, ?_⟩
    · intro p hp
      rw [heq] at hp
      obtain ⟨r, hr, rfl⟩ := List.mem_map.mp hp
      have hle : r.2 ≤ maxQ (m.map Prod.snd) :=
        le_maxQ _ _ (List.mem_map_of_mem Prod.snd hr)
      exact (div_le_one hpos).mpr hle
    · intro hnn p hp
      rw [heq] at hp
      obtain ⟨r, hr, rfl⟩ := List.mem_map.mp hp
      exact div_nonneg (hnn r hr) hpos.le
    · intro key hkey
      rw [heq]
      have hmem := List.mem_map_of_mem (fun p => (p.1, p.2 / maxQ (m.map Prod.snd))) hkey
      simpa [div_self (ne_of_gt hpos)] using hmem

/-- Witness for C5 (amended) on a concrete two-entry mapping. -/
theorem normalize_text_score_spec_spot :
    normalize_text_score [(("a" : String), (2:ℚ)), (("b" : String), 1)] =
      [(("a" : String), (1:ℚ)), (("b" : String), 1/2)] := by
  have hmax : maxQ ([(("a" : String), (2:ℚ)), (("b" : String), 1)].map Prod.snd) = 2 := by
    norm_num [maxQ, max_def]
  have h := ((normalize_text_score_spec [(("a" : String), (2:ℚ)), (("b" : String), 1)]
      (by decide)).2.2 (by rw [hmax]; norm_num)).1
  rw [h, hmax]
  norm_num

/-- C4 counterexample: a candidate with zero keyword overlap against a query
with two content tokens gets lexical component
`KEYWORD_WEIGHT * 0.65 * normalized_lexical = 0.39`; the claimed `-0.5`
zero-overlap penalty (which would give `0.285`) is not applied. -/
theorem lexical_component_cex :
    (scoreCandidate ("red dress") (content_tokens_of ("red dress"))
        [(("1" : String), (1:ℚ))] [] ("1")
        { id := some "1", score := 4, title := "Blue Shoes" }).lexical = 39/100 ∧
    ((39:ℚ)/100 ≠ KEYWORD_WEIGHT * (65/100 * 1 + 35/100 * (0 - 1/2))) := by
  constructor
  · have h1 : content_tokens_of ("red dress") = ["red", "dress"] := by decide
    have h2 : tokenize ("Blue Shoes") = ["blue", "shoes"] := by decide
    have h3 : strContains (lowerChars ("Blue Shoes")) (lowerChars ("red dress")) = false := by
      decide
    have h4 : dictGet [(("1" : String), (1:ℚ))] ("1") = 1 := rfl
    simp [scoreCandidate, h1, h2, h3, h4, KEYWORD_WEIGHT]
    norm_num
  · norm_num [KEYWORD_WEIGHT]

/-- C4 amended: the lexical component is
`KEYWORD_WEIGHT * (0.65 * normalized_lexical + 0.35 * keyword_score)` where
`keyword_score` is the content-token overlap count over `max(|content|, 1)`
plus an extra `1.0` when the lowercased query is a substring of the lowercased
title; no zero-overlap penalty exists. -/
theorem lexical_component_formula (q : String) (ct : List String)
    (ts vs : List (String × ℚ)) (docId : String) (h : Hit) :
    (scoreCandidate q ct ts vs docId h).lexical =
      KEYWORD_WEIGHT * (65/100 * dictGet ts docId +
        35/100 * (((ct.countP (fun t => (tokenize h.title).contains t)) : ℚ) /
            ((max ct.length 1 : ℕ) : ℚ) +
          (if strContains (lowerChars h.title) (lowerChars q) then (1:ℚ) else 0))) := by
  simp only [scoreCandidate]
  by_cases hp : strContains (lowerChars h.title) (lowerChars q)
  · simp [hp, List.countP_eq_length_filter]
  · simp [hp, List.countP_eq_length_filter]

/-- The set of distinct (truthy) document ids appearing in a hit list. -/
def uniqueIds (hits : List Hit) : Finset String := (hits.filterMap hitId).toFinset

/-- Folding the candidate merge adds at most one entry per processed hit. -/
theorem foldl_addCandidate_length (hits : List Hit) :
    ∀ m : List (String × Hit),
      (hits.foldl addCandidate m).length ≤ m.length + hits.length := by
  induction hits with
  | nil => intro m; simp
  | cons h t ih =>
    intro m
    have hstep : (addCandidate m h).length ≤ m.length + 1 := by
      cases hid : hitId h with
      | none => simp [addCandidate, hid]
      | some i =>
        by_cases hin : m.any (fun p => p.1 == i)
        · simp [addCandidate, hid, hin]
        · simp [addCandidate, hid, hin]
    calc ((h :: t).foldl addCandidate m).length
        = (t.foldl addCandidate (addCandidate m h)).length := by simp
      _ ≤ (addCandidate m h).length + t.length := ih _
      _ ≤ m.length + 1 + t.length := by omega
      _ = m.length + (h :: t).length := by simp; omega

/-- Folding the candidate merge preserves distinctness of the keys. -/
theorem foldl_addCandidate_nodup (hits : List Hit) :
    ∀ m : List (String × Hit), (m.map Prod.fst).Nodup →
      ((hits.foldl addCandidate m).map Prod.fst).Nodup := by
  induction hits with
  | nil => intro m hm; simpa using hm
  | cons h t ih =>
    intro m hm
    have hstep : ((addCandidate m h).map Prod.fst).Nodup := by
      cases hid : hitId h with
      | none => simpa [addCandidate, hid] using hm
      | some i =>
        by_cases hin : m.any (fun p => p.1 == i)
        · simpa [addCandidate, hid, hin] using hm
        · have hnot : i ∉ m.map Prod.fst := by
            intro hmem
            obtain ⟨p, hp, rfl⟩ := List.mem_map.mp hmem
            exact hin (List.any_eq_true.mpr ⟨p, hp, beq_self_eq_true _⟩)
          have hmap : (addCandidate m h).map Prod.fst = m.map Prod.fst ++ [i] := by
            simp [addCandidate, hid, hin]
          rw [hmap]
          refine List.Nodup.append hm (List.nodup_singleton i) ?_
          intro x hx hx2
          simp only [List.mem_singleton] at hx2
          exact hnot (hx2 ▸ hx)
    simpa using ih (addCandidate m h) hstep

/-- Every key already present, and every truthy id of a processed hit, is a
key of the folded candidate map. -/
theorem foldl_addCandidate_mem_keys (hits : List Hit) :
    ∀ m : List (String × Hit), ∀ i : String,
      (i ∈ m.map Prod.fst ∨ i ∈ hits.filterMap hitId) →
      i ∈ (hits.foldl addCandidate m).map Prod.fst := by
  induction hits with
  | nil => intro m i hi; simpa using hi.resolve_right (by simp)
  | cons h t ih =>
    intro m i hi
    have hsub : ∀ j, j ∈ m.map Prod.fst → j ∈ (addCandidate m h).map Prod.fst := by
      intro j hj
      cases hid : hitId h with
      | none => simpa [addCandidate, hid] using hj
      | some a =>
        by_cases hin : m.any (fun p => p.1 == a)
        · simpa [addCandidate, hid, hin] using hj
        · have hmap : (addCandidate m h).map Prod.fst = m.map Prod.fst ++ [a] := by
            simp [addCandidate, hid, hin]
          rw [hmap]
          exact List.mem_append_left _ hj
    have hself : ∀ a, hitId h = some a → a ∈ (addCandidate m h).map Prod.fst := by
      intro a hid
      by_cases hin : m.any (fun p => p.1 == a)
      · obtain ⟨p, hp, hpa⟩ := List.any_eq_true.mp hin
        have : p.1 = a := by simpa using hpa
        simp only [addCandidate, hid, hin, if_true]
        exact this ▸ List.mem_map_of_mem Prod.fst hp
      · have hmap : (addCandidate m h).map Prod.fst = m.map Prod.fst ++ [a] := by
          simp [addCandidate, hid, hin]
        rw [hmap]
        exact List.mem_append_right _ (by simp)
    rcases hi with hi | hi
    · exact (by simpa using ih (addCandidate m h) i (Or.inl (hsub i hi)))
    · rw [List.filterMap_cons] at hi
      cases hid : hitId h with
      | none =>
        rw [hid] at hi
        exact (by simpa using ih (addCandidate m h) i (Or.inr hi))
      | some a =>
        rw [hid] at hi
        rcases List.mem_cons.mp hi with rfl | hi
        · exact (by simpa using ih (addCandidate m h) i (Or.inl (hself i hid)))
        · exact (by simpa using ih (addCandidate m h) i (Or.inr hi))

/-- Every entry of the folded candidate map either was already present or is
an entry `(i, h)` for a processed hit `h` whose truthy id is `i`. -/
theorem foldl_addCandidate_entries (hits : List Hit) :
    ∀ m : List (String × Hit), ∀ p ∈ hits.foldl addCandidate m,
      p ∈ m ∨ (hitId p.2 = some p.1 ∧ p.2 ∈ hits) := by
  induction hits with
  | nil => intro m p hp; exact Or.inl (by simpa using hp)
  | cons h t ih =>
    intro m p hp
    have hp' : p ∈ t.foldl addCandidate (addCandidate m h) := by simpa using hp
    rcases ih (addCandidate m h) p hp' with hp2 | hp2
    · cases hid : hitId h with
      | none =>
        rw [addCandidate, hid] at hp2
        exact Or.inl hp2
      | some a =>
        by_cases hin : m.any (fun q => q.1 == a)
        · rw [addCandidate, hid] at hp2
          simp only [hin, if_true] at hp2
          exact Or.inl hp2
        · rw [addCandidate, hid] at hp2
          simp only [hin, if_false] at hp2
          rcases List.mem_append.mp hp2 with hp3 | hp3
          · exact Or.inl hp3
          · simp only [List.mem_singleton] at hp3
            subst hp3
            exact Or.inr ⟨hid, List.mem_cons_self _ _⟩
    · exact Or.inr ⟨hp2.1, List.mem_cons_of_mem _ hp2.2⟩

/-- C9: the merge folds over the vector hits followed by the lexical hits,
keeps each document id exactly once (keys are distinct), retains only entries
keyed by the truthy id of a processed hit, and its size is at most `|V| + |L|`
and at least the number of distinct ids of either source alone. -/
theorem merge_candidates_spec (V L : List Hit) :
    mergeCandidates V L = (V ++ L).foldl addCandidate [] ∧
    ((mergeCandidates V L).map Prod.fst).Nodup ∧
    (∀ p ∈ mergeCandidates V L, hitId p.2 = some p.1 ∧ p.2 ∈ V ++ L) ∧
    (mergeCandidates V L).length ≤ V.length + L.length ∧
    max (uniqueIds V).card (uniqueIds L).card ≤ (mergeCandidates V L).length := by
  have hnodup : ((mergeCandidates V L).map Prod.fst).Nodup :=
    foldl_addCandidate_nodup (V ++ L) [] (by simp)
  refine ⟨rfl, hnodup, ?_, ?_, ?_⟩
  · intro p hp
    rcases foldl_addCandidate_entries (V ++ L) [] p hp with h | h
    · simp at h
    · exact h
  · have := foldl_addCandidate_length (V ++ L) []
    simpa [mergeCandidates] using this
  · have hkeys : ∀ i ∈ (V ++ L).filterMap hitId,
        i ∈ (mergeCandidates V L).map Prod.fst := by
      intro i hi
      exact foldl_addCandidate_mem_keys (V ++ L) [] i (Or.inr hi)
    have hlen : ((mergeCandidates V L).map Prod.fst).length = (mergeCandidates V L).length :=
      List.length_map _ _
    have hcard : ∀ hits : List Hit, (∀ h ∈ hits, h ∈ V ++ L) →
        (uniqueIds hits).card ≤ (mergeCandidates V L).length := by
      intro hits hsub
      have hsubset : uniqueIds hits ⊆ ((mergeCandidates V L).map Prod.fst).toFinset := by
        intro i hi
        rw [List.mem_toFinset]
        apply hkeys
        rw [List.mem_filterMap]
        obtain ⟨h, hh, hhi⟩ := List.mem_filterMap.mp (List.mem_toFinset.mp hi)
        exact ⟨h, hsub h hh, hhi⟩
      calc (uniqueIds hits).card
          ≤ ((mergeCandidates V L).map Prod.fst).toFinset.card := Finset.card_le_card hsubset
        _ = ((mergeCandidates V L).map Prod.fst).length := List.toFinset_card_of_nodup hnodup
        _ = (mergeCandidates V L).length := hlen
    exact max_le (hcard V (fun h hh => List.mem_append_left _ hh))
      (hcard L (fun h hh => List.mem_append_right _ hh))

/-- C10: the ranking step is the stable descending sort of the scored
candidates truncated to `k`: the sorted list is a permutation of the input,
non-increasing in `final_score`, candidates of equal score keep their
merge-insertion order (filtering either list to a fixed score gives the same
sequence), and the output has at most `k` elements. -/
theorem rank_results_spec (l : List RankedResult) (k : ℕ) :
    rankResults l k = (sortByScoreDesc l).take k ∧
    List.Perm (sortByScoreDesc l) l ∧
    List.Pairwise (fun a b => b.score ≤ a.score) (sortByScoreDesc l) ∧
    (∀ s : ℚ, (sortByScoreDesc l).filter (fun r => r.score == s) =
      l.filter (fun r => r.score == s)) ∧
    (rankResults l k).length ≤ k := by
  have htrans : ∀ a b c : RankedResult, scoreDescLE a b → scoreDescLE b c → scoreDescLE a c := by
    intro a b c hab hbc
    simp only [scoreDescLE, decide_eq_true_eq] at *
    exact le_trans hbc hab
  have htotal : ∀ a b : RankedResult, scoreDescLE a b || scoreDescLE b a := by
    intro a b
    simp only [scoreDescLE, Bool.or_eq_true, decide_eq_true_eq]
    exact le_total b.score a.score
  refine ⟨rfl, List.mergeSort_perm l scoreDescLE, ?_, ?_, ?_⟩
  · have := List.sorted_mergeSort htrans htotal l
    exact this.imp (fun hab => by simpa [scoreDescLE] using hab)
  · intro s
    set p : RankedResult → Bool := fun r => r.score == s with hp
    have hmem : ∀ r ∈ l.filter p, r.score = s := by
      intro r hr
      have := List.of_mem_filter hr
      simpa [hp] using this
    have hpw : (l.filter p).Pairwise (fun a b => scoreDescLE a b) := by
      apply List.pairwise_of_forall_mem_list
      intro a ha b hb
      simp only [scoreDescLE, decide_eq_true_eq]
      rw [hmem a ha, hmem b hb]
    have hsub : List.Sublist (l.filter p) (List.mergeSort l scoreDescLE) :=
      List.sublist_mergeSort htrans htotal hpw (List.filter_sublist l)
    have hsub2 : List.Sublist (l.filter p) ((List.mergeSort l scoreDescLE).filter p) := by
      have h2 := List.Sublist.filter p hsub
      have h3 : (l.filter p).filter p = l.filter p := by
        simp [List.filter_filter]
      rwa [h3] at h2
    have hperm : List.Perm ((List.mergeSort l scoreDescLE).filter p) (l.filter p) :=
      (List.mergeSort_perm l scoreDescLE).filter p
    have hlen2 : (l.filter p).length = ((List.mergeSort l scoreDescLE).filter p).length :=
      hperm.length_eq.symm
    have heq := hsub2.eq_of_length hlen2
    simpa [sortByScoreDesc, hp] using heq.symm
  · simp only [rankResults]
    rw [List.length_take]
    omega

end SearchService
